import Mathlib

/-!
Verification of the AuctionBay backend bidding/settlement engine.

Shallow embedding of the TypeScript sources:
* `src/app.module.ts` (auction-status utilities: `calculateCurrentPrice`,
  `calculateAuctionStatus`, `isValidBidAmount`, `isAuctionActive`);
* `src/unnamed/part_012` (`BidsService.placeBid`);
* `src/src/notifications/notifications.service.ts` (`createNotification`);
* `src/src/auctions/auction-end.service.ts` (`createNotificationsForAuction`);
* `src/src/auctions/auction-scheduler.service.ts` and `src/unnamed/part_016`
  (`processScheduledJobs`, `executeJob`);
* the Prisma migrations in `src/unnamed/part_003` / `part_004` (table shapes,
  the `JobStatus` enum, the unique index on `bids(auctionId, bidderId)`).

Modelling conventions: `DECIMAL(10,2)` money amounts are rationals (all the
code's comparisons on `Number(...)` coincide with the rational order for
values of this precision); `Date` instants are integers (epoch milliseconds);
the injectable clock value `now` is passed explicitly; a Prisma
`$transaction` callback is an atomic state transformation, so concurrent
transactions are modelled by their commit order; row ids are strings.
-/

namespace AuctionBay

/-- `JobStatus` enum, from the migration in `src/unnamed/part_004`:
`CREATE TYPE "JobStatus" AS ENUM ('PENDING', 'EXECUTED', 'FAILED', 'CANCELLED')`. -/
inductive JobStatus where
  | PENDING
  | EXECUTED
  | FAILED
  | CANCELLED
deriving DecidableEq, Repr

/-- A `bids` row (migration `part_003`): id, amount `DECIMAL(10,2)`, auctionId,
bidderId, createdAt; unique index on `(auctionId, bidderId)`.  The table has no
`updatedAt` column. -/
structure Bid where
  id : String
  amount : ℚ
  auctionId : String
  bidderId : String
  createdAt : ℤ
deriving DecidableEq, Repr

/-- An `auctions` row (migration `part_003`, after `part_004` dropped
`currentBid`/`status`): the invariant-bearing fields. -/
structure Auction where
  id : String
  startingPrice : ℚ
  endTime : ℤ
  sellerId : String
deriving DecidableEq, Repr

/-- A `notifications` row (migrations `part_003`/`part_004`): userId, auctionId,
nullable price.  `id`/`createdAt` are surrogate columns with no behavioural
content and are omitted. -/
structure Notification where
  userId : String
  auctionId : String
  price : Option ℚ
deriving DecidableEq, Repr

/-- A `scheduled_jobs` row (migration `part_004`): id, auctionId (unique),
scheduledAt, status, executedAt, error. -/
structure Job where
  id : String
  auctionId : String
  scheduledAt : ℤ
  status : JobStatus
  executedAt : Option ℤ
  error : Option String
deriving DecidableEq, Repr

/-- The auction/bid store read and written by `placeBid`. -/
structure DB where
  auctions : List Auction
  bids : List Bid
deriving DecidableEq, Repr

/-! ## Auction-status utilities (`app.module.ts`, second document:
`auction-status.util`) -/

/-- `calculateCurrentPrice(auction)`: `Math.max(...auction.bids.map(amount))`,
or `Number(auction.startingPrice)` when the auction has no bids.  The bid list
is passed as the list of amounts the caller fetched. -/
def calculateCurrentPrice (startingPrice : ℚ) (bidAmounts : List ℚ) : ℚ :=
  match bidAmounts with
  | [] => startingPrice
  | a :: rest => rest.foldl max a

/-- Default value of the `minIncrement` parameter of `isValidBidAmount`
(`minIncrement: number = 1`); both call sites in `placeBid` leave it at the
default. -/
def minIncrementDefault : ℚ := 1

/-- `isValidBidAmount(bidAmount, currentPrice, minIncrement = 1)`:
`bidAmount > currentPrice && bidAmount >= currentPrice + minIncrement`. -/
def isValidBidAmount (bidAmount currentPrice minIncrement : ℚ) : Bool :=
  decide (bidAmount > currentPrice) && decide (bidAmount ≥ currentPrice + minIncrement)

/-- `isAuctionActive(endTime)`: `new Date() < endTime`, with the clock value
passed explicitly. -/
def isAuctionActive (now endTime : ℤ) : Bool :=
  decide (now < endTime)

/-- The derived `AuctionStatus` enum (`app.module.ts`). -/
inductive AuctionStatus where
  | IN_PROGRESS
  | WINNING
  | OUTBID
  | DONE
deriving DecidableEq, Repr

/-- `calculateAuctionStatus(auction, userId?)`: DONE iff `endTime < now`
(strict); otherwise IN_PROGRESS when no user or no bid by the user; otherwise
WINNING/OUTBID by comparing the user's bid with the current price. -/
def calculateAuctionStatus (now : ℤ) (endTime : ℤ) (startingPrice : ℚ)
    (bids : List Bid) (userId : Option String) : AuctionStatus :=
  if endTime < now then
    .DONE
  else
    match userId with
    | none => .IN_PROGRESS
    | some uid =>
      match bids.find? (fun b => b.bidderId == uid) with
      | none => .IN_PROGRESS
      | some userBid =>
        if userBid.amount ≥ calculateCurrentPrice startingPrice (bids.map (·.amount)) then
          .WINNING
        else
          .OUTBID

/-! ## Bid placement (`BidsService.placeBid`, `src/unnamed/part_012`) -/

/-- The exceptions `placeBid` throws: `NotFoundException('Auction not found')`,
`BadRequestException('Auction has ended')`, `ForbiddenException` (self-bid),
and `BadRequestException` carrying the current price (too-low bid). -/
inductive BidError where
  | notFound
  | auctionEnded
  | selfBid
  | priceTooLow (currentPrice : ℚ)
deriving DecidableEq, Repr

/-- The bid rows of one auction (the store's `bids` relation of the auction). -/
def auctionBids (db : DB) (auctionId : String) : List Bid :=
  db.bids.filter (fun b => b.auctionId == auctionId)

/-- `prisma.auction.findUnique({ where: { id: auctionId } })`. -/
def findAuction (db : DB) (auctionId : String) : Option Auction :=
  db.auctions.find? (fun a => a.id == auctionId)

/-- Comparator of the bid fetch `orderBy: { amount: 'desc' }` and of the
settlement sort `(a, b) => Number(b.amount) - Number(a.amount)`: `a` may
precede `b` iff `b.amount ≤ a.amount`. -/
def bidSortLE (a b : Bid) : Bool :=
  decide (b.amount ≤ a.amount)

/-- The bid list sorted descending by amount.  JavaScript's `Array.sort` is
stable, as is Prisma's `orderBy` on the fetched page, so the model uses the
stable `List.mergeSort`. -/
def sortBidsByAmountDesc (bids : List Bid) : List Bid :=
  bids.mergeSort bidSortLE

/-- The current price `placeBid` computes: it fetches only the top bid
(`orderBy: { amount: 'desc' }, take: 1`) and applies `calculateCurrentPrice`
to that one-element (or empty) bid list. -/
def currentPriceOf (db : DB) (a : Auction) : ℚ :=
  calculateCurrentPrice a.startingPrice
    (((sortBidsByAmountDesc (auctionBids db a.id)).take 1).map (·.amount))

/-- `tx.bid.upsert` keyed by the unique pair `(auctionId, bidderId)`:
`update: { amount }` when a row for the pair exists (only the amount column is
written), `create: { amount, auctionId, bidderId }` otherwise (the database
fills `id` and `createdAt`). -/
def upsertBid (bids : List Bid) (auctionId bidderId : String) (amount : ℚ)
    (freshId : String) (now : ℤ) : List Bid :=
  if bids.any (fun b => b.auctionId == auctionId && b.bidderId == bidderId) then
    bids.map (fun b =>
      if b.auctionId == auctionId && b.bidderId == bidderId then
        { b with amount := amount }
      else b)
  else
    bids ++ [{ id := freshId, amount := amount, auctionId := auctionId,
               bidderId := bidderId, createdAt := now }]

/-- `BidsService.placeBid(auctionId, bidderId, { amount })`.

`staleDb` is the store state the pre-transaction fast check reads (possibly
stale under concurrency); `freshDb` is the committed state the
`prisma.$transaction` callback re-reads at its commit slot.  A sequential call
passes the same state for both.  Returns the committed store paired with
`none` on success or the thrown error; a thrown error aborts the transaction,
so the store is returned unchanged in every error case. -/
def placeBid (staleDb freshDb : DB) (now : ℤ) (auctionId bidderId : String)
    (amount : ℚ) (freshId : String) : DB × Option BidError :=
  match findAuction staleDb auctionId with
  | none => (freshDb, some .notFound)
  | some auction =>
    if !isAuctionActive now auction.endTime then
      (freshDb, some .auctionEnded)
    else if auction.sellerId == bidderId then
      (freshDb, some .selfBid)
    else if !isValidBidAmount amount (currentPriceOf staleDb auction) minIncrementDefault then
      (freshDb, some (.priceTooLow (currentPriceOf staleDb auction)))
    else
      match findAuction freshDb auctionId with
      | none => (freshDb, some .notFound)
      | some currentAuction =>
        if !isAuctionActive now currentAuction.endTime then
          (freshDb, some .auctionEnded)
        else if !isValidBidAmount amount (currentPriceOf freshDb currentAuction) minIncrementDefault then
          (freshDb, some (.priceTooLow (currentPriceOf freshDb currentAuction)))
        else
          ({ freshDb with
             bids := upsertBid freshDb.bids auctionId bidderId amount freshId now },
           none)

/-! ## Notification store (`notifications.service.ts`) -/

/-- `NotificationsService.createNotification({ userId, auctionId, price })`:
first `notification.deleteMany({ where: { userId, auctionId } })`, then
`notification.create({ data: { userId, auctionId, price } })`. -/
def createNotification (store : List Notification) (userId auctionId : String)
    (price : Option ℚ) : List Notification :=
  store.filter (fun n => !(n.userId == userId && n.auctionId == auctionId))
    ++ [{ userId := userId, auctionId := auctionId, price := price }]

/-! ## Settlement (`AuctionEndService.createNotificationsForAuction`,
`src/src/auctions/auction-end.service.ts`) -/

/-- `AuctionEndService.createNotificationsForAuction(auction)`: return the
store unchanged when the auction has no bids; otherwise sort the bids
descending by amount, take the head as winner and the rest as losers, write
the winner's notification with the final price, then each loser's with a null
price.  Per-recipient write failures are caught and logged in the source; the
model is the failure-free run. -/
def createNotificationsForAuction (store : List Notification) (auctionId : String)
    (bids : List Bid) : List Notification :=
  if bids.isEmpty then
    store
  else
    match sortBidsByAmountDesc bids with
    | [] => store
    | winner :: losers =>
      losers.foldl (fun s l => createNotification s l.bidderId auctionId none)
        (createNotification store winner.bidderId auctionId (some winner.amount))

/-! ## Scheduler (`AuctionSchedulerService`,
`src/src/auctions/auction-scheduler.service.ts` and the `src/unnamed/part_016`
variant of the same class) -/

/-- Comparator of the sweep's `orderBy: { scheduledAt: 'asc' }`. -/
def jobSortLE (a b : Job) : Bool :=
  decide (a.scheduledAt ≤ b.scheduledAt)

/-- `processScheduledJobs` job selection: `findMany({ where: { scheduledAt:
{ lte: now }, status: PENDING }, orderBy: { scheduledAt: 'asc' } })`; the
sweep's `for` loop then processes the result in list order. -/
def dueJobs (jobs : List Job) (now : ℤ) : List Job :=
  (jobs.filter (fun j => decide (j.scheduledAt ≤ now) && j.status == .PENDING)).mergeSort
    jobSortLE

/-- `scheduledJob.update({ where: { id: jobId }, data: { status: EXECUTED,
executedAt: new Date() } })`: the row filter is the primary key only — the
row's current status is not part of the condition. -/
def markJobExecuted (jobs : List Job) (jobId : String) (now : ℤ) : List Job :=
  jobs.map (fun j =>
    if j.id == jobId then { j with status := .EXECUTED, executedAt := some now } else j)

/-- `scheduledJob.update({ where: { id: jobId }, data: { status: FAILED,
error } })`: likewise filtered by the primary key only. -/
def markJobFailed (jobs : List Job) (jobId : String) (errMsg : String) : List Job :=
  jobs.map (fun j =>
    if j.id == jobId then { j with status := .FAILED, error := some errMsg } else j)

/-- One observable step of `executeJob`, in program order. -/
inductive SchedEvent where
  | setStatus (jobId : String) (status : JobStatus)
  | settleAuction (auctionId : String)
deriving DecidableEq, Repr

/-- Event trace of `executeJob` in
`src/src/auctions/auction-scheduler.service.ts` on its failure-free path: with
no bids, only the EXECUTED update; with bids, the `scheduledJob.update` to
EXECUTED runs first and `createNotificationsForAuction` runs after it. -/
def executeJobEvents (job : Job) (bids : List Bid) : List SchedEvent :=
  if bids.isEmpty then
    [.setStatus job.id .EXECUTED]
  else
    [.setStatus job.id .EXECUTED, .settleAuction job.auctionId]

/-- Event trace of the `executeJob` variant in `src/unnamed/part_016` on its
failure-free path: with bids, `createNotificationsForAuction` runs first and
the EXECUTED update runs only after it returns. -/
def executeJobEventsPart016 (job : Job) (bids : List Bid) : List SchedEvent :=
  if bids.isEmpty then
    [.setStatus job.id .EXECUTED]
  else
    [.settleAuction job.auctionId, .setStatus job.id .EXECUTED]

/-- `AuctionEndService.processEndedAuctions` auction selection (the manual
recovery path behind `processEndedAuctionsManually`): `auction.findMany({
where: { endTime: { lte: now }, scheduledJobs: { none: { status: EXECUTED } }
} })`. -/
def processEndedAuctionsSelection (auctions : List Auction) (jobs : List Job)
    (now : ℤ) : List Auction :=
  auctions.filter (fun a =>
    decide (a.endTime ≤ now)
      && !(jobs.any (fun j => j.auctionId == a.id && j.status == .EXECUTED)))

/-! ## Derived notions used by the theorems -/

/-- The maximum bid amount of a non-empty bid list (`0` for the empty list);
the "current price" of the data model for an auction with bids. -/
def maxBidAmount (bids : List Bid) : ℚ :=
  match bids with
  | [] => 0
  | b :: rest => rest.foldl (fun m x => max m x.amount) b.amount

/-- At most one bid row per `(auctionId, bidderId)` — the unique index
`bids_auctionId_bidderId_key` of migration `part_003`. -/
def bidPairsNodup (bids : List Bid) : Prop :=
  (bids.map (fun b => (b.auctionId, b.bidderId))).Nodup

/-- The notification rows settlement writes for an auction, in write order:
the winner's row (with the final price) followed by one null-price row per
loser, in sorted order. -/
def notificationRows (auctionId : String) (bids : List Bid) : List Notification :=
  match sortBidsByAmountDesc bids with
  | [] => []
  | winner :: losers =>
    { userId := winner.bidderId, auctionId := auctionId, price := some winner.amount }
      :: losers.map (fun l =>
          { userId := l.bidderId, auctionId := auctionId, price := none })

/-- Whether some write in `ws` targets the same `(userId, auctionId)` pair as
the stored row `n`. -/
def pairHit (ws : List Notification) (n : Notification) : Bool :=
  ws.any (fun w => n.userId == w.userId && n.auctionId == w.auctionId)

/-! ## Helper lemmas: maxima of bid lists -/

theorem foldl_max_init_le (l : List Bid) (init : ℚ) :
    init ≤ l.foldl (fun m x => max m x.amount) init := by
  induction l generalizing init with
  | nil => exact le_refl _
  | cons x xs ih =>
    simp only [List.foldl_cons]
    exact le_trans (le_max_left _ _) (ih (max init x.amount))

theorem le_foldl_max_of_mem {l : List Bid} {b : Bid} (hb : b ∈ l) (init : ℚ) :
    b.amount ≤ l.foldl (fun m x => max m x.amount) init := by
  induction l generalizing init with
  | nil => cases hb
  | cons x xs ih =>
    simp only [List.foldl_cons]
    rcases List.mem_cons.mp hb with rfl | h
    · exact le_trans (le_max_right _ _) (foldl_max_init_le xs _)
    · exact ih h _

theorem foldl_max_eq_init_or_mem (l : List Bid) (init : ℚ) :
    l.foldl (fun m x => max m x.amount) init = init
      ∨ ∃ b ∈ l, l.foldl (fun m x => max m x.amount) init = b.amount := by
  induction l generalizing init with
  | nil => exact Or.inl rfl
  | cons x xs ih =>
    simp only [List.foldl_cons]
    rcases ih (max init x.amount) with h | ⟨b, hb, he⟩
    · rcases max_choice init x.amount with hm | hm
      · exact Or.inl (h.trans hm)
      · exact Or.inr ⟨x, List.mem_cons_self _ _, h.trans hm⟩
    · exact Or.inr ⟨b, List.mem_cons_of_mem _ hb, he⟩

theorem le_maxBidAmount {bids : List Bid} {b : Bid} (hb : b ∈ bids) :
    b.amount ≤ maxBidAmount bids := by
  match bids, hb with
  | x :: xs, hb =>
    simp only [maxBidAmount]
    rcases List.mem_cons.mp hb with rfl | h
    · exact foldl_max_init_le xs _
    · exact le_foldl_max_of_mem h _

theorem exists_maxBidAmount {bids : List Bid} (h : bids ≠ []) :
    ∃ b ∈ bids, maxBidAmount bids = b.amount := by
  match bids with
  | x :: xs =>
    simp only [maxBidAmount]
    rcases foldl_max_eq_init_or_mem xs x.amount with he | ⟨b, hb, he⟩
    · exact ⟨x, List.mem_cons_self _ _, he⟩
    · exact ⟨b, List.mem_cons_of_mem _ hb, he⟩

/-! ## Helper lemmas: the settlement sort -/

theorem bidSortLE_trans : ∀ (a b c : Bid), bidSortLE a b → bidSortLE b c → bidSortLE a c := by
  intro a b c hab hbc
  simp only [bidSortLE, decide_eq_true_eq] at *
  exact le_trans hbc hab

theorem bidSortLE_total : ∀ (a b : Bid), bidSortLE a b || bidSortLE b a := by
  intro a b
  simp only [bidSortLE, Bool.or_eq_true, decide_eq_true_eq]
  exact le_total b.amount a.amount

theorem sortBids_perm (bids : List Bid) : List.Perm (sortBidsByAmountDesc bids) bids :=
  List.mergeSort_perm bids bidSortLE

theorem sortBids_pairwise (bids : List Bid) :
    (sortBidsByAmountDesc bids).Pairwise (fun a b => b.amount ≤ a.amount) := by
  have h := List.sorted_mergeSort bidSortLE_trans bidSortLE_total bids
  exact h.imp (by intro a b hb; simpa [bidSortLE] using hb)

theorem sortBids_ne_nil {bids : List Bid} (h : bids ≠ []) :
    sortBidsByAmountDesc bids ≠ [] := by
  intro hc
  apply h
  have hlen := (sortBids_perm bids).length_eq
  rw [hc] at hlen
  exact List.length_eq_zero.mp hlen.symm

theorem sortBids_head_max {bids : List Bid} {w : Bid} {rest : List Bid}
    (h : sortBidsByAmountDesc bids = w :: rest) :
    w ∈ bids ∧ w.amount = maxBidAmount bids ∧ ∀ b ∈ bids, b.amount ≤ w.amount := by
  have hperm := sortBids_perm bids
  rw [h] at hperm
  have hw : w ∈ bids := hperm.mem_iff.mp (List.mem_cons_self _ _)
  have hpw := sortBids_pairwise bids
  rw [h] at hpw
  have hall : ∀ b ∈ bids, b.amount ≤ w.amount := by
    intro b hb
    rcases List.mem_cons.mp (hperm.mem_iff.mpr hb) with rfl | hbr
    · exact le_refl _
    · exact (List.pairwise_cons.mp hpw).1 b hbr
  refine ⟨hw, le_antisymm (le_maxBidAmount hw) ?_, hall⟩
  rcases @exists_maxBidAmount bids (by intro hc; rw [hc] at hw; cases hw) with ⟨b, hb, he⟩
  rw [he]
  exact hall b hb

/-- Stability of the settlement sort: when `f` is the first bid of the fetched
list attaining the maximal amount, the sort places `f` first — JavaScript's
stable sort never moves a later equal-amount bid ahead of `f`. -/
theorem sortBids_head_first_max (l₁ l₂ : List Bid) (f : Bid)
    (hl₁ : ∀ b ∈ l₁, b.amount < f.amount)
    (hl₂ : ∀ b ∈ l₂, b.amount ≤ f.amount)
    (hnd : (l₁ ++ f :: l₂).Nodup) :
    ∃ rest, sortBidsByAmountDesc (l₁ ++ f :: l₂) = f :: rest := by
  have hne : l₁ ++ f :: l₂ ≠ [] := by simp
  obtain ⟨w, rest, hw⟩ : ∃ w rest, sortBidsByAmountDesc (l₁ ++ f :: l₂) = w :: rest := by
    cases hsort : sortBidsByAmountDesc (l₁ ++ f :: l₂) with
    | nil => exact absurd hsort (sortBids_ne_nil hne)
    | cons w rest => exact ⟨w, rest, rfl⟩
  obtain ⟨hwmem, _, hall⟩ := sortBids_head_max hw
  by_cases hwf : w = f
  · exact ⟨rest, hwf ▸ hw⟩
  have hfle : f.amount ≤ w.amount := hall f (by simp)
  have hwcase : w ∈ l₁ ∨ w = f ∨ w ∈ l₂ := by simpa using hwmem
  rcases hwcase with h1 | h2 | h3
  · exact absurd (hl₁ w h1) (not_lt.mpr hfle)
  · exact absurd h2 hwf
  · exfalso
    have hsub : List.Sublist [f, w] (l₁ ++ f :: l₂) := by
      have hsub1 : List.Sublist [f, w] (f :: l₂) := (List.singleton_sublist.mpr h3).cons₂ f
      exact hsub1.trans (List.sublist_append_right l₁ (f :: l₂))
    have hle : bidSortLE f w := by
      simp only [bidSortLE, decide_eq_true_eq]
      exact hl₂ w h3
    have hstab := List.pair_sublist_mergeSort bidSortLE_trans bidSortLE_total hle hsub
    rw [show (l₁ ++ f :: l₂).mergeSort bidSortLE = w :: rest from hw] at hstab
    have hndsort : (w :: rest).Nodup := by
      rw [← hw]
      exact ((sortBids_perm (l₁ ++ f :: l₂)).nodup_iff).mpr hnd
    rcases List.sublist_cons_iff.mp hstab with htail | ⟨r, hr, _⟩
    · exact (List.nodup_cons.mp hndsort).1 (htail.subset (by simp))
    · exact hwf (by injection hr with h1 _; exact h1.symm)

/-! ## Helper lemmas: the notification store -/

theorem createNotification_row_eq (s : List Notification) (w : Notification) :
    createNotification s w.userId w.auctionId w.price
      = s.filter (fun n => !(n.userId == w.userId && n.auctionId == w.auctionId)) ++ [w] :=
  rfl

theorem writeNotifs_eq (ws : List Notification) (s : List Notification)
    (hnd : (ws.map (fun w => (w.userId, w.auctionId))).Nodup) :
    ws.foldl (fun t w => createNotification t w.userId w.auctionId w.price) s
      = s.filter (fun n => !pairHit ws n) ++ ws := by
  induction ws generalizing s with
  | nil => simp [pairHit]
  | cons w ws ih =>
    simp only [List.map_cons, List.nodup_cons] at hnd
    simp only [List.foldl_cons]
    rw [ih _ hnd.2, createNotification_row_eq, List.filter_append]
    have hwP : pairHit ws w = false := by
      simp only [pairHit, List.any_eq_false, Bool.and_eq_true, beq_iff_eq, not_and]
      intro x hx he
      intro hea
      exact hnd.1 (by
        rw [List.mem_map]
        exact ⟨x, hx, by rw [← he, ← hea]⟩)
    have hsingle :
        List.filter (fun n => !pairHit ws n) [w] = [w] := by
      simp [hwP]
    rw [hsingle, List.filter_filter, List.append_assoc]
    congr 1
    apply List.filter_congr
    intro n _
    simp only [pairHit, List.any_cons, Bool.not_or, Bool.and_comm]

theorem notificationRows_pairs (aid : String) (bids : List Bid) :
    (notificationRows aid bids).map (fun w => (w.userId, w.auctionId))
      = ((sortBidsByAmountDesc bids).map Bid.bidderId).map (fun u => (u, aid)) := by
  unfold notificationRows
  cases h : sortBidsByAmountDesc bids with
  | nil => simp
  | cons w ls => simp [List.map_map]

theorem notificationRows_pairs_nodup (aid : String) (bids : List Bid)
    (hdist : (bids.map Bid.bidderId).Nodup) :
    ((notificationRows aid bids).map (fun w => (w.userId, w.auctionId))).Nodup := by
  rw [notificationRows_pairs]
  have hsorted : ((sortBidsByAmountDesc bids).map Bid.bidderId).Nodup :=
    (((sortBids_perm bids).map Bid.bidderId).nodup_iff).mpr hdist
  exact hsorted.map (fun a b h => by simpa using h)

theorem createNotificationsForAuction_eq (store : List Notification) (aid : String)
    (bids : List Bid) (hdist : (bids.map Bid.bidderId).Nodup) :
    createNotificationsForAuction store aid bids
      = store.filter (fun n => !pairHit (notificationRows aid bids) n)
          ++ notificationRows aid bids := by
  by_cases hb : bids = []
  · subst hb
    have hs : sortBidsByAmountDesc [] = [] := by simp [sortBidsByAmountDesc]
    simp [createNotificationsForAuction, notificationRows, hs, pairHit]
  · obtain ⟨w, ls, hw⟩ : ∃ w ls, sortBidsByAmountDesc bids = w :: ls := by
      cases hsort : sortBidsByAmountDesc bids with
      | nil => exact absurd hsort (sortBids_ne_nil hb)
      | cons w ls => exact ⟨w, ls, rfl⟩
    have hrows : notificationRows aid bids
        = { userId := w.bidderId, auctionId := aid, price := some w.amount }
            :: ls.map (fun l => { userId := l.bidderId, auctionId := aid, price := none }) := by
      unfold notificationRows
      rw [hw]
    have hmain : createNotificationsForAuction store aid bids
        = (notificationRows aid bids).foldl
            (fun t r => createNotification t r.userId r.auctionId r.price) store := by
      unfold createNotificationsForAuction
      rw [if_neg (by simpa [List.isEmpty_iff] using hb), hw, hrows]
      simp only [List.foldl_cons, List.foldl_map]
    rw [hmain, writeNotifs_eq _ _ (notificationRows_pairs_nodup aid bids hdist)]

theorem notificationRows_userIds (aid : String) (bids : List Bid) :
    (notificationRows aid bids).map Notification.userId
      = (sortBidsByAmountDesc bids).map Bid.bidderId := by
  unfold notificationRows
  cases h : sortBidsByAmountDesc bids with
  | nil => simp
  | cons w ls => simp [List.map_map]

theorem notificationRows_auctionIds (aid : String) (bids : List Bid) :
    ∀ n ∈ notificationRows aid bids, n.auctionId = aid := by
  unfold notificationRows
  cases h : sortBidsByAmountDesc bids with
  | nil => simp
  | cons w ls =>
    intro n hn
    rcases List.mem_cons.mp hn with rfl | hn
    · rfl
    · rcases List.mem_map.mp hn with ⟨l, _, rfl⟩
      rfl

theorem notificationRows_exists_row {aid : String} {bids : List Bid} {b : Bid}
    (hb : b ∈ bids) :
    ∃ n ∈ notificationRows aid bids, n.userId = b.bidderId := by
  have hbs : b ∈ sortBidsByAmountDesc bids := (sortBids_perm bids).mem_iff.mpr hb
  unfold notificationRows
  cases h : sortBidsByAmountDesc bids with
  | nil => rw [h] at hbs; cases hbs
  | cons w ls =>
    rw [h] at hbs
    rcases List.mem_cons.mp hbs with rfl | hbl
    · exact ⟨_, List.mem_cons_self _ _, rfl⟩
    · exact ⟨_, List.mem_cons_of_mem _ (List.mem_map_of_mem _ hbl), rfl⟩

theorem length_filter_userId_eq_one {l : List Notification} {u aid : String}
    (hnd : (l.map Notification.userId).Nodup)
    (hall : ∀ n ∈ l, n.auctionId = aid)
    (hmem : ∃ n ∈ l, n.userId = u) :
    (l.filter (fun n => n.userId == u && n.auctionId == aid)).length = 1 := by
  induction l with
  | nil =>
    rcases hmem with ⟨n, hn, _⟩
    cases hn
  | cons x xs ih =>
    simp only [List.map_cons, List.nodup_cons] at hnd
    by_cases hx : x.userId = u
    · have hpx : (x.userId == u && x.auctionId == aid) = true := by
        simp [hx, hall x (List.mem_cons_self _ _)]
      have hrest : xs.filter (fun n => n.userId == u && n.auctionId == aid) = [] := by
        apply List.filter_eq_nil_iff.mpr
        intro n hn hpn
        simp only [Bool.and_eq_true, beq_iff_eq] at hpn
        exact hnd.1 (by
          rw [List.mem_map]
          exact ⟨n, hn, by rw [hpn.1, hx]⟩)
      simp [List.filter_cons, hpx, hrest]
    · have hpx : (x.userId == u && x.auctionId == aid) = false := by
        simp [hx]
      have hmem2 : ∃ n ∈ xs, n.userId = u := by
        rcases hmem with ⟨n, hn, hnu⟩
        rcases List.mem_cons.mp hn with rfl | hn2
        · exact absurd hnu hx
        · exact ⟨n, hn2, hnu⟩
      have := ih hnd.2 (fun n hn => hall n (List.mem_cons_of_mem _ hn)) hmem2
      simp [List.filter_cons, hpx, this]

theorem rows_self_pairHit {rows : List Notification} {r : Notification} (hr : r ∈ rows) :
    pairHit rows r = true := by
  simp only [pairHit, List.any_eq_true]
  exact ⟨r, hr, by simp⟩

/-- C1 -- For every ended auction with at least one bid, settlement produces
exactly one non-null-price notification for the auction; it belongs to a
bidder of the maximal amount with that amount as its price, and every other
bidder receives a null-price notification. -/
theorem settledAuction_unique_winner_notification
    (store : List Notification) (aid : String) (bids : List Bid)
    (hne : bids ≠ [])
    (hdist : (bids.map Bid.bidderId).Nodup)
    (hstore : ∀ n ∈ store, n.auctionId ≠ aid) :
    ((createNotificationsForAuction store aid bids).filter
        (fun n => n.auctionId == aid && n.price.isSome)).length = 1
    ∧ ∃ w ∈ bids, w.amount = maxBidAmount bids
        ∧ Notification.mk w.bidderId aid (some w.amount)
            ∈ createNotificationsForAuction store aid bids
        ∧ ∀ b ∈ bids, b.bidderId ≠ w.bidderId →
            Notification.mk b.bidderId aid none
              ∈ createNotificationsForAuction store aid bids := by
  obtain ⟨w, ls, hw⟩ : ∃ w ls, sortBidsByAmountDesc bids = w :: ls := by
    cases hsort : sortBidsByAmountDesc bids with
    | nil => exact absurd hsort (sortBids_ne_nil hne)
    | cons w ls => exact ⟨w, ls, rfl⟩
  have hrows : notificationRows aid bids
      = { userId := w.bidderId, auctionId := aid, price := some w.amount }
          :: ls.map (fun l => { userId := l.bidderId, auctionId := aid, price := none }) := by
    unfold notificationRows
    rw [hw]
  have hfinal := createNotificationsForAuction_eq store aid bids hdist
  obtain ⟨hwmem, hwmax, _⟩ := sortBids_head_max hw
  constructor
  · rw [hfinal, List.filter_append]
    have hstorepart : (store.filter (fun n => !pairHit (notificationRows aid bids) n)).filter
        (fun n => n.auctionId == aid && n.price.isSome) = [] := by
      apply List.filter_eq_nil_iff.mpr
      intro n hn hpn
      simp only [Bool.and_eq_true, beq_iff_eq] at hpn
      exact hstore n (List.mem_of_mem_filter hn) hpn.1
    have hrowspart : (notificationRows aid bids).filter
        (fun n => n.auctionId == aid && n.price.isSome)
          = [{ userId := w.bidderId, auctionId := aid, price := some w.amount }] := by
      rw [hrows]
      have hls : (ls.map (fun l =>
          ({ userId := l.bidderId, auctionId := aid, price := none } : Notification))).filter
            (fun n => n.auctionId == aid && n.price.isSome) = [] := by
        apply List.filter_eq_nil_iff.mpr
        intro n hn hpn
        rcases List.mem_map.mp hn with ⟨l, _, rfl⟩
        simp at hpn
      simp [List.filter_cons, hls]
    rw [hstorepart, hrowspart]
    rfl
  · refine ⟨w, hwmem, hwmax, ?_, ?_⟩
    · rw [hfinal, hrows]
      exact List.mem_append_right _ (List.mem_cons_self _ _)
    · intro b hb hbne
      have hbs : b ∈ sortBidsByAmountDesc bids := (sortBids_perm bids).mem_iff.mpr hb
      rw [hw] at hbs
      rcases List.mem_cons.mp hbs with rfl | hbl
      · exact absurd rfl hbne
      · rw [hfinal, hrows]
        exact List.mem_append_right _
          (List.mem_cons_of_mem _ (List.mem_map_of_mem _ hbl))

/-- C7 -- Settlement is idempotent: re-running it over the store it produced
yields the identical store, and for every participating bidder exactly one
notification for the `(bidder, auction)` pair is live afterwards. -/
theorem settlement_idempotent
    (store : List Notification) (aid : String) (bids : List Bid)
    (hdist : (bids.map Bid.bidderId).Nodup) :
    createNotificationsForAuction (createNotificationsForAuction store aid bids) aid bids
      = createNotificationsForAuction store aid bids
    ∧ ∀ b ∈ bids,
        ((createNotificationsForAuction store aid bids).filter
          (fun n => n.userId == b.bidderId && n.auctionId == aid)).length = 1 := by
  have hfinal := createNotificationsForAuction_eq store aid bids hdist
  have hrowsnil : (notificationRows aid bids).filter
      (fun n => !pairHit (notificationRows aid bids) n) = [] := by
    apply List.filter_eq_nil_iff.mpr
    intro r hr hpr
    rw [rows_self_pairHit hr] at hpr
    simp at hpr
  constructor
  · rw [createNotificationsForAuction_eq _ aid bids hdist, hfinal, List.filter_append,
      hrowsnil, List.append_nil, List.filter_filter]
    congr 1
    apply List.filter_congr
    intro n _
    rw [Bool.and_self]
  · intro b hb
    rw [hfinal, List.filter_append]
    have hstorepart : (store.filter (fun n => !pairHit (notificationRows aid bids) n)).filter
        (fun n => n.userId == b.bidderId && n.auctionId == aid) = [] := by
      apply List.filter_eq_nil_iff.mpr
      intro n hn hpn
      simp only [Bool.and_eq_true, beq_iff_eq] at hpn
      rcases @notificationRows_exists_row aid bids b hb with ⟨r, hr, hru⟩
      have hhit : pairHit (notificationRows aid bids) n = true := by
        simp only [pairHit, List.any_eq_true]
        refine ⟨r, hr, ?_⟩
        simp [hpn.1, hru, hpn.2, notificationRows_auctionIds aid bids r hr]
      have hP := List.of_mem_filter hn
      rw [hhit] at hP
      simp at hP
    have hnd2 : ((notificationRows aid bids).map Notification.userId).Nodup := by
      rw [notificationRows_userIds]
      exact (((sortBids_perm bids).map Bid.bidderId).nodup_iff).mpr hdist
    have hrowspart := length_filter_userId_eq_one hnd2
      (notificationRows_auctionIds aid bids)
      (@notificationRows_exists_row aid bids b hb)
    rw [hstorepart]
    simpa using hrowspart

/-- C8 (amended) -- Settlement sorts descending by amount with a stable sort:
when `f` is the first bid in the fetched list attaining the maximal amount,
`f` is selected as winner and receives the non-null-price notification,
regardless of the bids' timestamps. -/
theorem settlement_tiebreak_by_fetch_order
    (store : List Notification) (aid : String) (l₁ l₂ : List Bid) (f : Bid)
    (hfirst : ∀ b ∈ l₁, b.amount < f.amount)
    (hmax : ∀ b ∈ l₂, b.amount ≤ f.amount)
    (hdist : ((l₁ ++ f :: l₂).map Bid.bidderId).Nodup) :
    (∃ rest, sortBidsByAmountDesc (l₁ ++ f :: l₂) = f :: rest)
    ∧ Notification.mk f.bidderId aid (some f.amount)
        ∈ createNotificationsForAuction store aid (l₁ ++ f :: l₂) := by
  have hnd : (l₁ ++ f :: l₂).Nodup := List.Nodup.of_map _ hdist
  obtain ⟨rest, hsort⟩ := sortBids_head_first_max l₁ l₂ f hfirst hmax hnd
  refine ⟨⟨rest, hsort⟩, ?_⟩
  have hrows : notificationRows aid (l₁ ++ f :: l₂)
      = { userId := f.bidderId, auctionId := aid, price := some f.amount }
          :: rest.map (fun l => { userId := l.bidderId, auctionId := aid, price := none }) := by
    unfold notificationRows
    rw [hsort]
  rw [createNotificationsForAuction_eq store aid _ hdist, hrows]
  exact List.mem_append_right _ (List.mem_cons_self _ _)

/-- The claim "ties are broken by earliest bid timestamp" is false on the
code: with two equal maximal bids fetched later-timestamp first, the
later-timestamp bidder `u1` wins and the earlier-timestamp bidder `u2`
receives the null-price notification. -/
theorem settlement_tiebreak_timestamp_counterexample :
    createNotificationsForAuction [] "a1"
        [⟨"b1", 100, "a1", "u1", 20⟩, ⟨"b2", 100, "a1", "u2", 10⟩]
      = [⟨"u1", "a1", some 100⟩, ⟨"u2", "a1", none⟩]
    ∧ Notification.mk "u2" "a1" (some 100)
        ∉ createNotificationsForAuction [] "a1"
            [⟨"b1", 100, "a1", "u1", 20⟩, ⟨"b2", 100, "a1", "u2", 10⟩]
    ∧ (10 : ℤ) < 20 := by
  refine ⟨?_, ?_, by norm_num⟩ <;>
  · norm_num [createNotificationsForAuction, sortBidsByAmountDesc, List.mergeSort,
      List.merge, bidSortLE, createNotification, List.filter]
    decide

/-! ## Helper lemmas: bid placement -/

/-- In a sequential call (no concurrent commit between the pre-check and the
transaction) the two validation phases of `placeBid` read the same state, so
the call reduces to a single check chain. -/
theorem placeBid_seq_spec (db : DB) (now : ℤ) (aid bidder : String) (amt : ℚ) (fid : String) :
    placeBid db db now aid bidder amt fid =
      match findAuction db aid with
      | none => (db, some .notFound)
      | some a =>
        if !isAuctionActive now a.endTime then (db, some .auctionEnded)
        else if a.sellerId == bidder then (db, some .selfBid)
        else if !isValidBidAmount amt (currentPriceOf db a) minIncrementDefault then
          (db, some (.priceTooLow (currentPriceOf db a)))
        else ({ db with bids := upsertBid db.bids aid bidder amt fid now }, none) := by
  unfold placeBid
  cases h : findAuction db aid with
  | none => rfl
  | some a =>
    by_cases h1 : isAuctionActive now a.endTime = true
    · by_cases h2 : a.sellerId == bidder
      · simp [h1, h2]
      · by_cases h3 : isValidBidAmount amt (currentPriceOf db a) minIncrementDefault = true
        · simp [h1, h2, h3]
        · simp [h1, h2, h3]
    · simp [h1]

/-- With the default increment, validity is exactly
`currentPrice + 1 ≤ amount` (the strict-exceedance conjunct is implied). -/
theorem isValidBidAmount_default_iff (amt cp : ℚ) :
    isValidBidAmount amt cp minIncrementDefault = true ↔ cp + minIncrementDefault ≤ amt := by
  simp only [isValidBidAmount, minIncrementDefault, Bool.and_eq_true, decide_eq_true_eq]
  constructor
  · exact fun h => h.2
  · intro h
    exact ⟨by linarith, h⟩

/-- The price the top-1 fetch computes is the data model's current price:
the maximum bid amount of the auction, or its starting price with no bids. -/
theorem currentPriceOf_eq (db : DB) (a : Auction) :
    currentPriceOf db a
      = if auctionBids db a.id = [] then a.startingPrice
        else maxBidAmount (auctionBids db a.id) := by
  unfold currentPriceOf
  by_cases h : auctionBids db a.id = []
  · rw [if_pos h, h]
    simp [sortBidsByAmountDesc, calculateCurrentPrice]
  · rw [if_neg h]
    obtain ⟨w, ls, hw⟩ : ∃ w ls, sortBidsByAmountDesc (auctionBids db a.id) = w :: ls := by
      cases hsort : sortBidsByAmountDesc (auctionBids db a.id) with
      | nil => exact absurd hsort (sortBids_ne_nil h)
      | cons w ls => exact ⟨w, ls, rfl⟩
    rw [hw]
    simp only [List.take_succ_cons, List.take_zero, List.map_cons, List.map_nil,
      calculateCurrentPrice]
    exact (sortBids_head_max hw).2.1

/-- C5 -- `placeBid` throws NotFound iff the auction is missing; for an
existing auction it rejects iff the auction is no longer active, or the caller
is the seller, or the amount does not exceed the current price by the minimum
increment; a too-low rejection carries the current price; and every rejection
leaves the store unchanged. -/
theorem placeBid_rejection_spec (db : DB) (now : ℤ) (aid bidder : String)
    (amt : ℚ) (fid : String) :
    ((placeBid db db now aid bidder amt fid).2 = some .notFound ↔ findAuction db aid = none)
    ∧ (∀ a, findAuction db aid = some a →
        ((placeBid db db now aid bidder amt fid).2 ≠ none ↔
          (¬ now < a.endTime ∨ a.sellerId = bidder
            ∨ amt < currentPriceOf db a + minIncrementDefault)))
    ∧ (∀ a p, findAuction db aid = some a →
        (placeBid db db now aid bidder amt fid).2 = some (.priceTooLow p) →
        p = currentPriceOf db a)
    ∧ ((placeBid db db now aid bidder amt fid).2 ≠ none →
        (placeBid db db now aid bidder amt fid).1 = db)
    ∧ (∀ a, findAuction db aid = some a →
        a.id = aid
        ∧ currentPriceOf db a
            = if auctionBids db a.id = [] then a.startingPrice
              else maxBidAmount (auctionBids db a.id)) := by
  have hid : ∀ a, findAuction db aid = some a →
      a.id = aid
      ∧ currentPriceOf db a
          = if auctionBids db a.id = [] then a.startingPrice
            else maxBidAmount (auctionBids db a.id) := by
    intro a ha
    refine ⟨?_, currentPriceOf_eq db a⟩
    have := List.find?_some ha
    simpa using this
  refine ?_
  rw [placeBid_seq_spec]
  cases h : findAuction db aid with
  | none =>
    refine ⟨by simp, ?_, ?_, by simp, fun a ha => absurd ha (by simp)⟩
    · intro a ha
      cases ha
    · intro a p ha
      cases ha
  | some a =>
    by_cases h1 : isAuctionActive now a.endTime = true
    · by_cases h2 : a.sellerId = bidder
      · refine ⟨by simp [h1, h2], ?_, ?_, by simp [h1, h2],
          fun a2 ha2 => hid a2 (by rw [h]; exact ha2)⟩
        · intro a2 ha2
          injection ha2 with heq
          subst heq
          simp [h1, h2]
        · intro a2 p ha2 hp
          simp [h1, h2] at hp
      · have hb2 : (a.sellerId == bidder) = false := by simp [h2]
        by_cases h3 : isValidBidAmount amt (currentPriceOf db a) minIncrementDefault = true
        · refine ⟨by simp [h1, hb2, h3], ?_, ?_, by simp [h1, hb2, h3],
            fun a2 ha2 => hid a2 (by rw [h]; exact ha2)⟩
          · intro a2 ha2
            injection ha2 with heq
            subst heq
            simp only [h1, hb2, h3, Bool.not_true, Bool.false_eq_true, if_false,
              ne_eq, not_true_eq_false, false_iff, not_or, not_not, not_lt]
            refine ⟨by simpa [isAuctionActive] using h1, h2, ?_⟩
            exact (isValidBidAmount_default_iff amt _).mp h3
          · intro a2 p ha2 hp
            simp [h1, hb2, h3] at hp
        · have hb3 : isValidBidAmount amt (currentPriceOf db a) minIncrementDefault = false :=
            Bool.eq_false_iff.mpr h3
          have hlt : amt < currentPriceOf db a + minIncrementDefault :=
            not_le.mp (mt (isValidBidAmount_default_iff amt _).mpr h3)
          refine ⟨by simp [h1, hb2, hb3], ?_, ?_, by simp [h1, hb2, hb3],
            fun a2 ha2 => hid a2 (by rw [h]; exact ha2)⟩
          · intro a2 ha2
            injection ha2 with heq
            subst heq
            simp only [h1, hb2, hb3, Bool.not_true, Bool.not_false, Bool.false_eq_true,
              if_false, if_true, ne_eq, reduceCtorEq, not_false_eq_true, true_iff]
            exact Or.inr (Or.inr hlt)
          · intro a2 p ha2 hp
            injection ha2 with heq
            subst heq
            simp [h1, hb2, hb3] at hp
            exact hp.symm
    · have hb1 : isAuctionActive now a.endTime = false := Bool.eq_false_iff.mpr h1
      have hnotlt : ¬ now < a.endTime := by simpa [isAuctionActive] using hb1
      refine ⟨by simp [hb1], ?_, ?_, by simp [hb1],
          fun a2 ha2 => hid a2 (by rw [h]; exact ha2)⟩
      · intro a2 ha2
        injection ha2 with heq
        subst heq
        simp only [hb1, Bool.not_false, if_true, ne_eq, reduceCtorEq,
          not_false_eq_true, true_iff]
        exact Or.inl hnotlt
      · intro a2 p ha2 hp
        simp [hb1] at hp

/-- C2 -- The authoritative validation happens at commit time: a bid commits
only if it is valid against the current price of the state its transaction
reads, and a bid that passed its stale pre-check but is invalid against the
commit-time price is rejected with the commit-time current price attached and
no write. -/
theorem placeBid_commit_time_check (staleDb freshDb : DB) (now : ℤ)
    (aid bidder : String) (amt : ℚ) (fid : String) :
    ((placeBid staleDb freshDb now aid bidder amt fid).2 = none →
      ∃ a, findAuction freshDb aid = some a
        ∧ isValidBidAmount amt (currentPriceOf freshDb a) minIncrementDefault = true)
    ∧ (∀ a a2, findAuction staleDb aid = some a → findAuction freshDb aid = some a2 →
        isAuctionActive now a.endTime = true →
        a.sellerId ≠ bidder →
        isValidBidAmount amt (currentPriceOf staleDb a) minIncrementDefault = true →
        isAuctionActive now a2.endTime = true →
        isValidBidAmount amt (currentPriceOf freshDb a2) minIncrementDefault = false →
        placeBid staleDb freshDb now aid bidder amt fid
          = (freshDb, some (.priceTooLow (currentPriceOf freshDb a2)))) := by
  constructor
  · intro hok
    unfold placeBid at hok
    cases h : findAuction staleDb aid with
    | none => rw [h] at hok; cases hok
    | some a =>
      rw [h] at hok
      by_cases h1 : isAuctionActive now a.endTime = true
      · by_cases h2 : (a.sellerId == bidder) = true
        · simp [h1, h2] at hok
        · by_cases h3 : isValidBidAmount amt (currentPriceOf staleDb a) minIncrementDefault = true
          · simp only [h1, Bool.not_true, Bool.false_eq_true, if_false,
              h2, h3] at hok
            cases hf : findAuction freshDb aid with
            | none =>
              rw [hf] at hok
              simp at hok
            | some a2 =>
              rw [hf] at hok
              by_cases h4 : isAuctionActive now a2.endTime = true
              · by_cases h5 :
                  isValidBidAmount amt (currentPriceOf freshDb a2) minIncrementDefault = true
                · exact ⟨a2, rfl, h5⟩
                · simp [h4, Bool.eq_false_iff.mpr h5] at hok
              · simp [Bool.eq_false_iff.mpr h4] at hok
          · simp [h1, h2, Bool.eq_false_iff.mpr h3] at hok
      · simp [Bool.eq_false_iff.mpr h1] at hok
  · intro a a2 hs hf hact hself hvalid hact2 hinvalid
    unfold placeBid
    rw [hs, hf]
    have hself2 : (a.sellerId == bidder) = false := by simp [hself]
    simp [hact, hself2, hvalid, hact2, hinvalid]

/-- C10 -- At the boundary instant `now = endTime` the two clock comparisons
disagree: `placeBid` already rejects with AuctionEnded, while the derived
status is not DONE (it is reported IN_PROGRESS for an anonymous viewer, and is
never DONE for any viewer). -/
theorem boundary_instant_disagreement (db : DB) (now : ℤ) (aid bidder : String)
    (amt : ℚ) (fid : String) (a : Auction)
    (ha : findAuction db aid = some a) (hb : a.endTime = now) :
    (placeBid db db now aid bidder amt fid).2 = some .auctionEnded
    ∧ isAuctionActive now a.endTime = false
    ∧ calculateAuctionStatus now a.endTime a.startingPrice (auctionBids db aid) none
        = .IN_PROGRESS
    ∧ ∀ uid : Option String,
        calculateAuctionStatus now a.endTime a.startingPrice (auctionBids db aid) uid
          ≠ .DONE := by
  have hact : isAuctionActive now a.endTime = false := by
    simp [isAuctionActive, hb]
  have hnotlt : ¬ a.endTime < now := by
    rw [hb]
    exact lt_irrefl now
  refine ⟨?_, hact, ?_, ?_⟩
  · rw [placeBid_seq_spec, ha]
    simp [hact]
  · simp [calculateAuctionStatus, hnotlt]
  · intro uid
    unfold calculateAuctionStatus
    rw [if_neg hnotlt]
    cases uid with
    | none => simp
    | some u =>
      cases hf : (auctionBids db aid).find? (fun b => b.bidderId == u) with
      | none => simp [hf]
      | some ub =>
        simp only [hf]
        by_cases hc : calculateCurrentPrice a.startingPrice
            ((auctionBids db aid).map (·.amount)) ≤ ub.amount
        · simp [hc]
        · simp [hc]

/-! ## Helper lemmas: the bid upsert -/

theorem upsertBid_pairsNodup (bids : List Bid) (aid bidder : String) (amt : ℚ)
    (fid : String) (now : ℤ) (h : bidPairsNodup bids) :
    bidPairsNodup (upsertBid bids aid bidder amt fid now) := by
  unfold bidPairsNodup at *
  unfold upsertBid
  by_cases hex : bids.any (fun b => b.auctionId == aid && b.bidderId == bidder) = true
  · rw [if_pos hex, List.map_map]
    have hcong : List.map
        ((fun b => (b.auctionId, b.bidderId)) ∘ fun b =>
          if (b.auctionId == aid && b.bidderId == bidder) = true then
            { b with amount := amt }
          else b) bids
        = List.map (fun b => (b.auctionId, b.bidderId)) bids := by
      apply List.map_congr_left
      intro b _
      simp only [Function.comp_apply]
      split <;> rfl
    rw [hcong]
    exact h
  · rw [if_neg hex, List.map_append]
    have hnotin : (aid, bidder) ∉ List.map (fun b => (b.auctionId, b.bidderId)) bids := by
      intro hp
      rcases List.mem_map.mp hp with ⟨b, hb, hbp⟩
      apply hex
      rw [List.any_eq_true]
      refine ⟨b, hb, ?_⟩
      simp only [Bool.and_eq_true, beq_iff_eq]
      exact ⟨congrArg Prod.fst hbp, congrArg Prod.snd hbp⟩
    apply List.Nodup.append h (by simp)
    intro p hp hq
    simp only [List.map_cons, List.map_nil, List.mem_singleton] at hq
    subst hq
    exact hnotin hp

theorem upsertBid_update_of_mem {bids : List Bid} {aid bidder : String} (amt : ℚ)
    (fid : String) (now : ℤ) {r : Bid} (hr : r ∈ bids) (h1 : r.auctionId = aid)
    (h2 : r.bidderId = bidder) :
    (upsertBid bids aid bidder amt fid now).length = bids.length
    ∧ { r with amount := amt } ∈ upsertBid bids aid bidder amt fid now := by
  have hex : bids.any (fun b => b.auctionId == aid && b.bidderId == bidder) = true := by
    rw [List.any_eq_true]
    exact ⟨r, hr, by simp [h1, h2]⟩
  unfold upsertBid
  rw [if_pos hex]
  refine ⟨List.length_map _ _, ?_⟩
  have hmem := List.mem_map_of_mem
    (fun b => if (b.auctionId == aid && b.bidderId == bidder) = true then
      { b with amount := amt } else b) hr
  simpa [h1, h2] using hmem

/-- C6 (amended) -- `placeBid` preserves the at-most-one-row-per-pair
invariant, and a successful repeat bid by the same bidder rewrites the
existing row in place: the list keeps its length and contains the old row with
only the amount replaced (its `id` and `createdAt` are untouched). -/
theorem bid_upsert_row_invariant (db : DB) (now : ℤ) (aid bidder : String)
    (amt : ℚ) (fid : String) (hnd : bidPairsNodup db.bids) :
    bidPairsNodup ((placeBid db db now aid bidder amt fid).1).bids
    ∧ ∀ r ∈ db.bids, r.auctionId = aid → r.bidderId = bidder →
        (placeBid db db now aid bidder amt fid).2 = none →
        ((placeBid db db now aid bidder amt fid).1).bids.length = db.bids.length
          ∧ { r with amount := amt } ∈ ((placeBid db db now aid bidder amt fid).1).bids := by
  rw [placeBid_seq_spec]
  cases h : findAuction db aid with
  | none =>
    refine ⟨hnd, ?_⟩
    intro r _ _ _ hok
    cases hok
  | some a =>
    by_cases h1 : isAuctionActive now a.endTime = true
    · by_cases h2 : (a.sellerId == bidder) = true
      · refine ⟨by simp [h1, h2]; exact hnd, ?_⟩
        intro r _ _ _ hok
        simp [h1, h2] at hok
      · have hb2 : (a.sellerId == bidder) = false := Bool.eq_false_iff.mpr h2
        by_cases h3 : isValidBidAmount amt (currentPriceOf db a) minIncrementDefault = true
        · refine ⟨?_, ?_⟩
          · simp only [h1, hb2, h3, Bool.not_true, Bool.false_eq_true, if_false]
            exact upsertBid_pairsNodup db.bids aid bidder amt fid now hnd
          · intro r hr hra hrb _
            simp only [h1, hb2, h3, Bool.not_true, Bool.false_eq_true, if_false]
            exact upsertBid_update_of_mem amt fid now hr hra hrb
        · have hb3 : isValidBidAmount amt (currentPriceOf db a) minIncrementDefault = false :=
            Bool.eq_false_iff.mpr h3
          refine ⟨by simp [h1, hb2, hb3]; exact hnd, ?_⟩
          intro r _ _ _ hok
          simp [h1, hb2, hb3] at hok
    · have hb1 : isAuctionActive now a.endTime = false := Bool.eq_false_iff.mpr h1
      refine ⟨by simp [hb1]; exact hnd, ?_⟩
      intro r _ _ _ hok
      simp [hb1] at hok

/-- The claim that a repeat bid overwrites the row's timestamp is false on the
code: the upsert update writes only `amount`, so after re-bidding at time 7
the row still carries its original `createdAt = 5`, not 7. -/
theorem bid_upsert_timestamp_counterexample :
    (placeBid ⟨[⟨"a1", 100, 10, "s"⟩], [⟨"b1", 110, "a1", "u1", 5⟩]⟩
        ⟨[⟨"a1", 100, 10, "s"⟩], [⟨"b1", 110, "a1", "u1", 5⟩]⟩
        7 "a1" "u1" 130 "b9").2 = none
    ∧ (placeBid ⟨[⟨"a1", 100, 10, "s"⟩], [⟨"b1", 110, "a1", "u1", 5⟩]⟩
        ⟨[⟨"a1", 100, 10, "s"⟩], [⟨"b1", 110, "a1", "u1", 5⟩]⟩
        7 "a1" "u1" 130 "b9").1.bids = [⟨"b1", 130, "a1", "u1", 5⟩]
    ∧ (5 : ℤ) ≠ 7 := by
  refine ⟨?_, ?_, by norm_num⟩ <;>
  · norm_num [placeBid, findAuction, isAuctionActive, currentPriceOf, auctionBids,
      sortBidsByAmountDesc, List.mergeSort, bidSortLE, calculateCurrentPrice,
      isValidBidAmount, minIncrementDefault, upsertBid, List.find?, List.filter]
    decide

/-! ## Scheduler theorems -/

/-- C3 (code evaluated at the failing input) -- for a due job with one bid,
the `auction-scheduler.service.ts` variant emits the EXECUTED status update
*before* the settlement call, while the `part_016` variant emits it after. -/
theorem executeJob_marks_executed_before_settlement :
    executeJobEvents ⟨"j1", "a1", 3, .PENDING, none, none⟩ [⟨"b1", 100, "a1", "u1", 1⟩]
      = [.setStatus "j1" .EXECUTED, .settleAuction "a1"]
    ∧ executeJobEventsPart016 ⟨"j1", "a1", 3, .PENDING, none, none⟩
        [⟨"b1", 100, "a1", "u1", 1⟩]
      = [.settleAuction "a1", .setStatus "j1" .EXECUTED] := by
  decide

/-- C4 (code evaluated at the failing input) -- the status updates filter by
job id only: applied to a job that is already EXECUTED (or FAILED) they still
rewrite the row, where the claim requires them to change nothing. -/
theorem scheduler_status_update_unconditional :
    markJobFailed [⟨"j1", "a1", 3, .EXECUTED, some 4, none⟩] "j1" "boom"
      = [⟨"j1", "a1", 3, .FAILED, some 4, some "boom"⟩]
    ∧ markJobExecuted [⟨"j1", "a1", 3, .FAILED, none, some "x"⟩] "j1" 9
      = [⟨"j1", "a1", 3, .EXECUTED, some 9, some "x"⟩]
    ∧ JobStatus.EXECUTED ≠ JobStatus.PENDING
    ∧ JobStatus.FAILED ≠ JobStatus.PENDING := by
  decide

theorem jobSortLE_trans : ∀ (a b c : Job), jobSortLE a b → jobSortLE b c → jobSortLE a c := by
  intro a b c hab hbc
  simp only [jobSortLE, decide_eq_true_eq] at *
  exact le_trans hab hbc

theorem jobSortLE_total : ∀ (a b : Job), jobSortLE a b || jobSortLE b a := by
  intro a b
  simp only [jobSortLE, Bool.or_eq_true, decide_eq_true_eq]
  exact le_total a.scheduledAt b.scheduledAt

/-- C9 -- A sweep selects exactly the PENDING jobs due by `now`, in ascending
`scheduledAt` order; no EXECUTED/FAILED/CANCELLED job is ever selected (so a
FAILED job is not auto-retried); the manual recovery path selects an ended
auction whose jobs are all non-EXECUTED (in particular one whose job FAILED). -/
theorem sweep_selects_pending_due (jobs : List Job) (now : ℤ) :
    (∀ j, j ∈ dueJobs jobs now ↔ (j ∈ jobs ∧ j.status = .PENDING ∧ j.scheduledAt ≤ now))
    ∧ (dueJobs jobs now).Pairwise (fun a b => a.scheduledAt ≤ b.scheduledAt)
    ∧ (∀ j ∈ jobs, j.status ≠ .PENDING → j ∉ dueJobs jobs now)
    ∧ (∀ (auctions : List Auction) (a : Auction), a ∈ auctions → a.endTime ≤ now →
        (∀ j ∈ jobs, j.auctionId = a.id → j.status ≠ .EXECUTED) →
        a ∈ processEndedAuctionsSelection auctions jobs now) := by
  have hmem : ∀ j, j ∈ dueJobs jobs now
      ↔ (j ∈ jobs ∧ j.status = .PENDING ∧ j.scheduledAt ≤ now) := by
    intro j
    unfold dueJobs
    rw [List.mem_mergeSort, List.mem_filter]
    simp only [Bool.and_eq_true, decide_eq_true_eq, beq_iff_eq]
    tauto
  refine ⟨hmem, ?_, ?_, ?_⟩
  · have h := List.sorted_mergeSort jobSortLE_trans jobSortLE_total
      (jobs.filter (fun j => decide (j.scheduledAt ≤ now) && j.status == .PENDING))
    exact h.imp (by intro a b hb; simpa [jobSortLE] using hb)
  · intro j hj hst hdue
    exact hst ((hmem j).mp hdue).2.1
  · intro auctions a ha hend hjobs
    unfold processEndedAuctionsSelection
    rw [List.mem_filter]
    refine ⟨ha, ?_⟩
    simp only [Bool.and_eq_true, decide_eq_true_eq]
    refine ⟨hend, ?_⟩
    rw [Bool.not_eq_true', List.any_eq_false]
    intro j hj hc
    simp only [Bool.and_eq_true, beq_iff_eq] at hc
    exact hjobs j hj hc.1 hc.2

/-! ## Concrete witnesses -/

/-- Scenario A instance of the C1 theorem: bids 105/120/115 produce exactly
one non-null-price notification for the auction. -/
theorem settledAuction_unique_winner_notification_witness :
    ((createNotificationsForAuction [] "a1"
        [⟨"b1", 105, "a1", "u1", 1⟩, ⟨"b2", 120, "a1", "u2", 2⟩,
          ⟨"b3", 115, "a1", "u3", 3⟩]).filter
        (fun n => n.auctionId == "a1" && n.price.isSome)).length = 1 :=
  (settledAuction_unique_winner_notification [] "a1"
      [⟨"b1", 105, "a1", "u1", 1⟩, ⟨"b2", 120, "a1", "u2", 2⟩, ⟨"b3", 115, "a1", "u3", 3⟩]
      (by decide) (by decide) (by simp)).1

/-- Instance of the C7 theorem: re-running settlement over its own output is
the identity. -/
theorem settlement_idempotent_witness :
    createNotificationsForAuction
        (createNotificationsForAuction [] "a1" [⟨"b1", 110, "a1", "u1", 1⟩]) "a1"
        [⟨"b1", 110, "a1", "u1", 1⟩]
      = createNotificationsForAuction [] "a1" [⟨"b1", 110, "a1", "u1", 1⟩] :=
  (settlement_idempotent [] "a1" [⟨"b1", 110, "a1", "u1", 1⟩] (by decide)).1

/-- Instance of the amended C8 theorem: of two equal 100-amount bids the one
first in the fetched list (`u1`) wins. -/
theorem settlement_tiebreak_by_fetch_order_witness :
    Notification.mk "u1" "a1" (some 100)
      ∈ createNotificationsForAuction [] "a1"
          [⟨"b1", 100, "a1", "u1", 20⟩, ⟨"b2", 100, "a1", "u2", 10⟩] := by
  have h := settlement_tiebreak_by_fetch_order [] "a1" []
    [⟨"b2", 100, "a1", "u2", 10⟩] ⟨"b1", 100, "a1", "u1", 20⟩
    (by simp) (by decide) (by decide)
  simpa using h.2

/-- Instance of the C5 theorem: a bid equal to the current price (100 against
starting price 100) is rejected. -/
theorem placeBid_rejection_spec_witness :
    (placeBid ⟨[⟨"a1", 100, 10, "s"⟩], []⟩ ⟨[⟨"a1", 100, 10, "s"⟩], []⟩
        3 "a1" "u1" 100 "b9").2 ≠ none := by
  have h := (placeBid_rejection_spec ⟨[⟨"a1", 100, 10, "s"⟩], []⟩
      3 "a1" "u1" 100 "b9").2.1 ⟨"a1", 100, 10, "s"⟩ rfl
  apply h.mpr
  refine Or.inr (Or.inr ?_)
  norm_num [currentPriceOf, auctionBids, sortBidsByAmountDesc, calculateCurrentPrice,
    minIncrementDefault, List.filter]

/-- Scenario C instance of the C2 theorem: against a committed state whose
current price is already 150, a second 150 bid that passed its stale pre-check
(price 140) is rejected with the updated current price 150 and no write. -/
theorem placeBid_commit_time_check_witness :
    placeBid ⟨[⟨"a1", 100, 10, "s"⟩], [⟨"b0", 140, "a1", "u0", 1⟩]⟩
        ⟨[⟨"a1", 100, 10, "s"⟩], [⟨"b0", 140, "a1", "u0", 1⟩, ⟨"b9", 150, "a1", "u1", 5⟩]⟩
        5 "a1" "u2" 150 "b8"
      = (⟨[⟨"a1", 100, 10, "s"⟩],
          [⟨"b0", 140, "a1", "u0", 1⟩, ⟨"b9", 150, "a1", "u1", 5⟩]⟩,
         some (.priceTooLow 150)) := by
  have h := (placeBid_commit_time_check
      ⟨[⟨"a1", 100, 10, "s"⟩], [⟨"b0", 140, "a1", "u0", 1⟩]⟩
      ⟨[⟨"a1", 100, 10, "s"⟩], [⟨"b0", 140, "a1", "u0", 1⟩, ⟨"b9", 150, "a1", "u1", 5⟩]⟩
      5 "a1" "u2" 150 "b8").2
    ⟨"a1", 100, 10, "s"⟩ ⟨"a1", 100, 10, "s"⟩ rfl rfl (by decide) (by decide)
    (by norm_num [isValidBidAmount, currentPriceOf, auctionBids, sortBidsByAmountDesc,
        calculateCurrentPrice, minIncrementDefault, List.mergeSort, List.filter])
    (by decide)
    (by norm_num [isValidBidAmount, currentPriceOf, auctionBids, sortBidsByAmountDesc,
        calculateCurrentPrice, minIncrementDefault, List.mergeSort, List.merge,
        bidSortLE, List.filter])
  rw [show currentPriceOf
      ⟨[⟨"a1", 100, 10, "s"⟩], [⟨"b0", 140, "a1", "u0", 1⟩, ⟨"b9", 150, "a1", "u1", 5⟩]⟩
      ⟨"a1", 100, 10, "s"⟩ = (150 : ℚ) from by
    norm_num [currentPriceOf, auctionBids, sortBidsByAmountDesc, calculateCurrentPrice,
      List.mergeSort, List.merge, bidSortLE, List.filter]] at h
  exact h

/-- Scenario B instance of the amended C6 theorem: after re-bidding 130 over
an existing 110 row, that row is rewritten in place (same id and createdAt). -/
theorem bid_upsert_row_invariant_witness :
    Bid.mk "b1" 130 "a1" "u1" 5
      ∈ ((placeBid ⟨[⟨"a1", 100, 10, "s"⟩], [⟨"b1", 110, "a1", "u1", 5⟩]⟩
          ⟨[⟨"a1", 100, 10, "s"⟩], [⟨"b1", 110, "a1", "u1", 5⟩]⟩
          7 "a1" "u1" 130 "b9").1).bids := by
  have h := (bid_upsert_row_invariant
      ⟨[⟨"a1", 100, 10, "s"⟩], [⟨"b1", 110, "a1", "u1", 5⟩]⟩
      7 "a1" "u1" 130 "b9" (by unfold bidPairsNodup; decide)).2
    ⟨"b1", 110, "a1", "u1", 5⟩ (by decide) rfl rfl
    (by norm_num [placeBid, findAuction, isAuctionActive, currentPriceOf, auctionBids,
        sortBidsByAmountDesc, List.mergeSort, bidSortLE, calculateCurrentPrice,
        isValidBidAmount, minIncrementDefault, upsertBid, List.find?, List.filter] <;>
      decide)
  exact h.2

/-- Instance of the C9 theorem: a due FAILED job is not selected by the sweep. -/
theorem sweep_selects_pending_due_witness :
    Job.mk "j1" "a1" 3 .FAILED none (some "x")
      ∉ dueJobs [⟨"j1", "a1", 3, .FAILED, none, some "x"⟩] 5 :=
  (sweep_selects_pending_due [⟨"j1", "a1", 3, .FAILED, none, some "x"⟩] 5).2.2.1
    ⟨"j1", "a1", 3, .FAILED, none, some "x"⟩ (by decide) (by decide)

/-- Instance of the C10 theorem: at `now = endTime = 10` a bid of any size is
rejected as ended while the derived status is still IN_PROGRESS. -/
theorem boundary_instant_disagreement_witness :
    (placeBid ⟨[⟨"a1", 100, 10, "s"⟩], []⟩ ⟨[⟨"a1", 100, 10, "s"⟩], []⟩
        10 "a1" "u1" 500 "b9").2 = some .auctionEnded
    ∧ calculateAuctionStatus 10 10 100
        (auctionBids ⟨[⟨"a1", 100, 10, "s"⟩], []⟩ "a1") none = .IN_PROGRESS := by
  have h := boundary_instant_disagreement ⟨[⟨"a1", 100, 10, "s"⟩], []⟩
    10 "a1" "u1" 500 "b9" ⟨"a1", 100, 10, "s"⟩ rfl rfl
  exact ⟨h.1, h.2.2.1⟩

end AuctionBay
